import Mathlib

/-!
Verification of the VMC project core against its natural-language specification.

The definitions below are a shallow embedding of the C++ sources
(`src/vmchelpers.inl`, `src/vmcalgs.inl`, `src/statistics.inl`,
`src/statistics.cpp`, `src/types.hpp`):
machine floating point is modelled by the reals, the pseudo-random generator by
an explicit stream of draws (each algorithm consumes the draws in the same
order as the C++ code consumes `gen`), and in-place mutation of the
configuration by explicit state passing.  Debug `assert` preconditions are
modelled by `Option` results where a claim is about them.
-/

namespace VmcProject

/-- A configuration: `N` particle positions, each an ordered `D`-tuple of real
coordinates.  Embeds `Positions<D, N>` of `types.hpp` (an `std::array` of
`std::array<Coordinate, D>`). -/
abbrev Positions (D N : ℕ) : Type := Fin N → Fin D → ℝ

/-- The variational parameters.  Embeds `VarParams<V>` of `types.hpp`. -/
abbrev VarParams (V : ℕ) : Type := Fin V → ℝ

/-- A wavefunction capability: a pure function
`(Positions<D,N>, VarParams<V>) → FPType` as required by `IsWavefunction`. -/
abbrev Wavefunction (D N V : ℕ) : Type := Positions D N → VarParams V → ℝ

/-- One Metropolis particle update: the body of the `for (Position<D> &p : poss)`
loop of `MetropolisUpdate_` (`vmchelpers.inl` lines 158-171).  `offs d` is the
uniform draw in `[0,1)` used for coordinate `d` of the jump and `acc` the
uniform draw of the Metropolis question; the result is the configuration after
the attempt together with whether the move was accepted. -/
noncomputable def metroStep {D N V : ℕ} (wavef : Wavefunction D N V)
    (params : VarParams V) (step : ℝ) (offs : Fin D → ℝ) (acc : ℝ)
    (poss : Positions D N) (n : Fin N) : Positions D N × Bool :=
  let oldPsi := wavef poss params
  let newPoss := Function.update poss n (fun d => poss n d + (offs d - 1/2) * step)
  if acc < (wavef newPoss params / oldPsi) ^ 2 then (newPoss, true) else (poss, false)

/-- Sequential sweep over a list of particles, threading the configuration and
the count of successful updates.  Both `MetropolisUpdate_` and
`ImportanceSamplingUpdate_` are sweeps of this shape (a `for` loop over the
particles mutating `poss` and a success counter). -/
def sweepAux {D N : ℕ} (stepF : Positions D N → Fin N → Positions D N × Bool) :
    List (Fin N) → Positions D N × ℕ → Positions D N × ℕ
  | [], st => st
  | n :: rest, st =>
    let r := stepF st.1 n
    sweepAux stepF rest (r.1, st.2 + (if r.2 then 1 else 0))

/-- Embeds `MetropolisUpdate_` (`vmchelpers.inl` lines 152-173): attempts to
update each particle once, in turn, and returns the final configuration and the
number of successful updates.  `draws n` supplies the `D` uniform coordinate
draws and the uniform acceptance draw consumed while particle `n` is
processed. -/
noncomputable def MetropolisUpdate {D N V : ℕ} (wavef : Wavefunction D N V)
    (params : VarParams V) (poss : Positions D N) (step : ℝ)
    (draws : Fin N → (Fin D → ℝ) × ℝ) : Positions D N × ℕ :=
  sweepAux (fun ps n => metroStep wavef params step (draws n).1 (draws n).2 ps n)
    (List.finRange N) (poss, 0)

lemma sweepAux_count_le {D N : ℕ}
    (stepF : Positions D N → Fin N → Positions D N × Bool) :
    ∀ (L : List (Fin N)) (st : Positions D N × ℕ),
      (sweepAux stepF L st).2 ≤ st.2 + L.length := by
  intro L
  induction L with
  | nil => intro st; simp [sweepAux]
  | cons n rest ih =>
    intro st
    have h := ih ((stepF st.1 n).1, st.2 + (if (stepF st.1 n).2 then 1 else 0))
    simp only [sweepAux]
    refine le_trans h ?_
    simp only [List.length_cons]
    split <;> omega

/-- Claim C1: in `MetropolisUpdate_` each particle's proposed move adds
`(u - 1/2) * step` to every coordinate (an offset in `[-step/2, step/2]` when
the draw `u` lies in `[0,1)` and the step is nonnegative); the move is accepted
exactly when the acceptance draw satisfies `acc < (psi(new)/psi(old))^2` (so a
move with `psi(new)^2 ≥ psi(old)^2` is always accepted, the old value being
nonzero); and the returned count of accepted moves is at most `N`. -/
theorem metropolis_update_c1 {D N V : ℕ} (wavef : Wavefunction D N V)
    (params : VarParams V) (step : ℝ) (poss : Positions D N) (n : Fin N)
    (offs : Fin D → ℝ) (acc : ℝ) (draws : Fin N → (Fin D → ℝ) × ℝ) :
    (∀ d : Fin D, (metroStep wavef params step offs acc poss n).1 ≠ poss →
      (Function.update poss n (fun d => poss n d + (offs d - 1/2) * step)) n d
        = poss n d + (offs d - 1/2) * step) ∧
    (0 ≤ step → (∀ d, 0 ≤ offs d ∧ offs d < 1) →
      ∀ d : Fin D, -(step/2) ≤ (offs d - 1/2) * step ∧ (offs d - 1/2) * step ≤ step/2) ∧
    ((metroStep wavef params step offs acc poss n).2 = true ↔
      acc < (wavef (Function.update poss n
        (fun d => poss n d + (offs d - 1/2) * step)) params / wavef poss params) ^ 2) ∧
    (wavef poss params ≠ 0 →
      (wavef poss params) ^ 2 ≤ (wavef (Function.update poss n
        (fun d => poss n d + (offs d - 1/2) * step)) params) ^ 2 →
      0 ≤ acc → acc < 1 → (metroStep wavef params step offs acc poss n).2 = true) ∧
    (MetropolisUpdate wavef params poss step draws).2 ≤ N := by
  constructor
  · intro d _
    simp [Function.update_same]
  constructor
  · intro hstep hoffs d
    obtain ⟨h0, h1⟩ := hoffs d
    constructor
    · have := mul_le_mul_of_nonneg_right (by linarith : (-(1:ℝ)/2) ≤ offs d - 1/2) hstep
      linarith
    · have := mul_le_mul_of_nonneg_right (by linarith : offs d - 1/2 ≤ 1/2) hstep
      linarith
  have hiff : (metroStep wavef params step offs acc poss n).2 = true ↔
      acc < (wavef (Function.update poss n
        (fun d => poss n d + (offs d - 1/2) * step)) params / wavef poss params) ^ 2 := by
    rw [metroStep]
    split <;> simp_all
  refine ⟨hiff, ?_, ?_⟩
  · intro hne hsq hacc0 hacc1
    rw [hiff]
    have hpos : 0 < (wavef poss params) ^ 2 := pow_two_pos_of_ne_zero hne
    have hone : (1 : ℝ) ≤ (wavef (Function.update poss n
        (fun d => poss n d + (offs d - 1/2) * step)) params / wavef poss params) ^ 2 := by
      rw [div_pow]
      rw [le_div_iff₀ hpos]
      linarith
    linarith
  · have h := sweepAux_count_le
      (fun ps m => metroStep wavef params step (draws m).1 (draws m).2 ps m)
      (List.finRange N) (poss, 0)
    simpa [MetropolisUpdate, List.length_finRange] using h

/-- Witness for C1 at a concrete input: one particle in one dimension, constant
wavefunction `1`, step `1`, coordinate draw `1/2`, acceptance draw `0`. -/
theorem metropolis_update_c1_witness :
    ((metroStep (D := 1) (N := 1) (V := 1) (fun _ _ => (1:ℝ)) (fun _ => 0) 1 (fun _ => 1/2) 0
        (fun _ _ => 0) (0 : Fin 1)).2 = true) ∧
    (∀ d : Fin 1, -(1/2 : ℝ) ≤ ((fun _ : Fin 1 => (1/2 : ℝ)) d - 1/2) * 1 ∧
      ((fun _ : Fin 1 => (1/2 : ℝ)) d - 1/2) * 1 ≤ 1/2) ∧
    (MetropolisUpdate (D := 1) (N := 1) (V := 1) (fun _ _ => (1:ℝ)) (fun _ => 0) (fun _ _ => 0) 1
        (fun _ => (fun _ => 1/2, 0))).2 ≤ 1 := by
  have h := metropolis_update_c1 (D := 1) (N := 1) (V := 1)
    (fun _ _ => (1:ℝ)) (fun _ => 0) 1 (fun _ _ => 0) (0 : Fin 1)
    (fun _ => 1/2) 0 (fun _ => (fun _ => 1/2, 0))
  refine ⟨?_, ?_, h.2.2.2.2⟩
  · exact h.2.2.2.1 (by norm_num) (by norm_num) (by norm_num) (by norm_num)
  · intro d
    exact h.2.1 (by norm_num) (fun d => by norm_num) d

/-- Embeds `DriftForceAnalytic_` (`vmchelpers.inl` lines 101-118): the drift
force `2 * gradient / psi`, one value per particle per dimension, from the
analytic first derivatives `grads`. -/
noncomputable def DriftForceAnalytic {D N V : ℕ} (wavef : Wavefunction D N V)
    (poss : Positions D N) (params : VarParams V)
    (grads : Fin N → Fin D → Wavefunction D N V) : Fin N → Fin D → ℝ :=
  fun n d => 2 * grads n d poss params / wavef poss params

/-- The importance-sampling proposal for one particle (`vmchelpers.inl` lines
199-201): coordinate `d` becomes
`oldPos[d] + diffConst * dt * (oldDrift[d] + eta d)`, where `eta d` is the draw
of `std::normal_distribution(0, diffConst * dt)` (a Gaussian of standard
deviation `diffConst * dt`). -/
def impProposal {D : ℕ} (diffConst dt : ℝ) (oldPos drift eta : Fin D → ℝ) :
    Fin D → ℝ :=
  fun d => oldPos d + diffConst * dt * (drift d + eta d)

/-- One importance-sampling particle update: the body of the `for (ParticNum n ...)`
loop of `ImportanceSamplingUpdate_` (`vmchelpers.inl` lines 192-229).
`eta` supplies the per-dimension draws of `std::normal_distribution(0, diffConst*deltaT)`
and `acc` the uniform acceptance draw. -/
noncomputable def impStep {D N V : ℕ} (wavef : Wavefunction D N V)
    (params : VarParams V) (grads : Fin N → Fin D → Wavefunction D N V)
    (masses : Fin N → ℝ) (dt hbar : ℝ) (eta : Fin D → ℝ) (acc : ℝ)
    (poss : Positions D N) (n : Fin N) : Positions D N × Bool :=
  let diffConst : ℝ := hbar * hbar / (2 * masses n)
  let oldPos := poss n
  let oldPsi := wavef poss params
  let oldDrift := DriftForceAnalytic wavef poss params grads
  let newPoss := Function.update poss n (impProposal diffConst dt oldPos (oldDrift n) eta)
  let newPsi := wavef newPoss params
  let forwardExponent : ℝ :=
    -∑ d : Fin D, ((newPoss n d - oldPos d - diffConst * dt * oldDrift n d) ^ 2
      / (4 * diffConst * dt))
  let forwardProb := Real.exp forwardExponent
  let newDrift := DriftForceAnalytic wavef newPoss params grads
  let backwardExponent : ℝ :=
    -∑ d : Fin D, ((oldPos d - newPoss n d - diffConst * dt * newDrift n d) ^ 2
      / (4 * diffConst * dt))
  let backwardProb := Real.exp backwardExponent
  let acceptanceRatio := (newPsi * newPsi * backwardProb) / (oldPsi * oldPsi * forwardProb)
  if acc < acceptanceRatio then (newPoss, true) else (poss, false)

/-- Embeds `ImportanceSamplingUpdate_` (`vmchelpers.inl` lines 180-231):
one importance-sampling attempt per particle, in turn; returns the final
configuration and the number of successful updates. -/
noncomputable def ImportanceSamplingUpdate {D N V : ℕ} (wavef : Wavefunction D N V)
    (params : VarParams V) (grads : Fin N → Fin D → Wavefunction D N V)
    (masses : Fin N → ℝ) (dt hbar : ℝ) (poss : Positions D N)
    (draws : Fin N → (Fin D → ℝ) × ℝ) : Positions D N × ℕ :=
  sweepAux (fun ps n => impStep wavef params grads masses dt hbar (draws n).1 (draws n).2 ps n)
    (List.finRange N) (poss, 0)

/-- Modelled from the spec (section 4.1, importance-sampling policy; the
constant `deltaT` and `hbar` live in the missing header `vmcalgs.hpp`): the
specified proposal moves a coordinate to
`old + D·Δt·drift + 𝒩(0, 2·D·Δt)`; writing the Gaussian draw of variance
`2·D·Δt` as `sqrt(2·D·Δt) * z` for a standard normal draw `z`. -/
noncomputable def specImpProposal (oldPos diffConst dt drift z : ℝ) : ℝ :=
  oldPos + diffConst * dt * drift + Real.sqrt (2 * (diffConst * dt)) * z

/-- Claim C2 (refuted; code bug): with mass `1/4`, `hbar = 1` and `Δt = 1`
(so the diffusion constant is `D = ħ²/(2m) = 2`), zero drift and old position
`0`, the draw of `std::normal_distribution(0, D·Δt)` corresponding to the
standard normal value `z = 1` is `D·Δt·z = 2`, and the code proposes the
position `old + D·Δt·(drift + 2) = 4`; the specified proposal
`old + D·Δt·drift + 𝒩(0, 2·D·Δt)` at the same standard normal draw is
`sqrt(2·D·Δt)·z = 2 ≠ 4`.  The code even accepts this move (the theorem
evaluates `impStep` itself at the failing input). -/
theorem importance_sampling_noise_c2 :
    impProposal (D := 1) 2 1 (fun _ => 0) (fun _ => 0) (fun _ => 2) 0 = 4 ∧
    ((impStep (D := 1) (N := 1) (V := 1) (fun _ _ => 1) (fun _ => 0)
        (fun _ _ => fun _ _ => 0) (fun _ => 1/4) 1 1 (fun _ => 2) 0
        (fun _ _ => 0) 0).1 0 0 = 4) ∧
    specImpProposal 0 2 1 0 1 = 2 ∧ (4 : ℝ) ≠ 2 := by
  have hsqrt : Real.sqrt (2 * ((2 : ℝ) * 1)) = 2 := by
    rw [show (2 * ((2:ℝ) * 1)) = 2 ^ 2 by norm_num]
    exact Real.sqrt_sq (by norm_num)
  refine ⟨by norm_num [impProposal], ?_, by simp [specImpProposal, hsqrt], by norm_num⟩
  rw [impStep]
  simp only [DriftForceAnalytic, impProposal]
  norm_num [Function.update_same]
  norm_num [DriftForceAnalytic, impProposal]

lemma sweepAux_count_mono {D N : ℕ}
    (stepF : Positions D N → Fin N → Positions D N × Bool) :
    ∀ (L : List (Fin N)) (st : Positions D N × ℕ), st.2 ≤ (sweepAux stepF L st).2 := by
  intro L
  induction L with
  | nil => intro st; simp [sweepAux]
  | cons n rest ih =>
    intro st
    simp only [sweepAux]
    exact le_trans (Nat.le_add_right _ _)
      (ih ((stepF st.1 n).1, st.2 + if (stepF st.1 n).2 then 1 else 0))

lemma sweepAux_untouched {D N : ℕ}
    {stepF : Positions D N → Fin N → Positions D N × Bool}
    (Hloc : ∀ ps n m, m ≠ n → (stepF ps n).1 m = ps m) :
    ∀ (L : List (Fin N)) (st : Positions D N × ℕ) (m : Fin N),
      m ∉ L → (sweepAux stepF L st).1 m = st.1 m := by
  intro L
  induction L with
  | nil => intro st m _; rfl
  | cons n rest ih =>
    intro st m hm
    simp only [List.mem_cons, not_or] at hm
    simp only [sweepAux]
    rw [ih _ m hm.2]
    exact Hloc st.1 n m hm.1

lemma sweepAux_all_rejected {D N : ℕ}
    {stepF : Positions D N → Fin N → Positions D N × Bool}
    (Hrej : ∀ ps n, (stepF ps n).2 = false → (stepF ps n).1 = ps) :
    ∀ (L : List (Fin N)) (st : Positions D N × ℕ),
      (sweepAux stepF L st).2 = st.2 → (sweepAux stepF L st).1 = st.1 := by
  intro L
  induction L with
  | nil => intro st _; rfl
  | cons n rest ih =>
    intro st hcount
    simp only [sweepAux] at hcount ⊢
    by_cases hflag : (stepF st.1 n).2 = true
    · exfalso
      have hmono := sweepAux_count_mono stepF rest
        ((stepF st.1 n).1, st.2 + if (stepF st.1 n).2 then 1 else 0)
      rw [hflag] at hmono hcount
      simp only [if_true] at hmono hcount
      omega
    · have hflag2 : (stepF st.1 n).2 = false := by simpa using hflag
      simp only [hflag2, Bool.false_eq_true, if_false, add_zero] at hcount ⊢
      rw [ih _ hcount]
      exact Hrej st.1 n hflag2

lemma sweepAux_dichotomy {D N : ℕ}
    {stepF : Positions D N → Fin N → Positions D N × Bool}
    (Hloc : ∀ ps n m, m ≠ n → (stepF ps n).1 m = ps m)
    (Hrej : ∀ ps n, (stepF ps n).2 = false → (stepF ps n).1 = ps) :
    ∀ (L : List (Fin N)) (st : Positions D N × ℕ) (n : Fin N), L.Nodup → n ∈ L →
      (sweepAux stepF L st).1 n = st.1 n ∨
      ∃ ps, ps n = st.1 n ∧ (stepF ps n).2 = true ∧
        (sweepAux stepF L st).1 n = (stepF ps n).1 n := by
  intro L
  induction L with
  | nil => intro st n _ h; exact absurd h (List.not_mem_nil n)
  | cons m rest ih =>
    intro st n hnd hmem
    have hnd2 := List.nodup_cons.mp hnd
    simp only [sweepAux]
    rcases List.mem_cons.mp hmem with heq | hmem2
    · subst heq
      by_cases hflag : (stepF st.1 n).2 = true
      · exact Or.inr ⟨st.1, rfl, hflag, sweepAux_untouched Hloc rest _ n hnd2.1⟩
      · left
        have hflag2 : (stepF st.1 n).2 = false := by simpa using hflag
        rw [sweepAux_untouched Hloc rest _ n hnd2.1, Hrej _ _ hflag2]
    · have hne : n ≠ m := fun h => hnd2.1 (h ▸ hmem2)
      have hcoord : (stepF st.1 m).1 n = st.1 n := Hloc st.1 m n hne
      rcases ih ((stepF st.1 m).1, st.2 + if (stepF st.1 m).2 then 1 else 0)
          n hnd2.2 hmem2 with h1 | ⟨ps, hps, hfl, hval⟩
      · left; rw [h1]; exact hcoord
      · exact Or.inr ⟨ps, by rw [hps]; exact hcoord, hfl, hval⟩

lemma metroStep_rejected_eq {D N V : ℕ} (wavef : Wavefunction D N V)
    (params : VarParams V) (step : ℝ) (offs : Fin D → ℝ) (acc : ℝ)
    (ps : Positions D N) (n : Fin N) :
    (metroStep wavef params step offs acc ps n).2 = false →
    (metroStep wavef params step offs acc ps n).1 = ps := by
  rw [metroStep]
  split
  · intro h; exact absurd h (by simp)
  · intro _; rfl

lemma metroStep_other_eq {D N V : ℕ} (wavef : Wavefunction D N V)
    (params : VarParams V) (step : ℝ) (offs : Fin D → ℝ) (acc : ℝ)
    (ps : Positions D N) (n m : Fin N) (hmn : m ≠ n) :
    (metroStep wavef params step offs acc ps n).1 m = ps m := by
  rw [metroStep]
  split
  · exact Function.update_noteq hmn _ _
  · rfl

lemma impStep_rejected_eq {D N V : ℕ} (wavef : Wavefunction D N V)
    (params : VarParams V) (grads : Fin N → Fin D → Wavefunction D N V)
    (masses : Fin N → ℝ) (dt hbar : ℝ) (eta : Fin D → ℝ) (acc : ℝ)
    (ps : Positions D N) (n : Fin N) :
    (impStep wavef params grads masses dt hbar eta acc ps n).2 = false →
    (impStep wavef params grads masses dt hbar eta acc ps n).1 = ps := by
  rw [impStep]
  split
  · intro h; exact absurd h (by simp)
  · intro _; rfl

lemma impStep_other_eq {D N V : ℕ} (wavef : Wavefunction D N V)
    (params : VarParams V) (grads : Fin N → Fin D → Wavefunction D N V)
    (masses : Fin N → ℝ) (dt hbar : ℝ) (eta : Fin D → ℝ) (acc : ℝ)
    (ps : Positions D N) (n m : Fin N) (hmn : m ≠ n) :
    (impStep wavef params grads masses dt hbar eta acc ps n).1 m = ps m := by
  rw [impStep]
  split
  · exact Function.update_noteq hmn _ _
  · rfl

/-- Claim C3: for both update policies, a rejected particle move restores the
particle exactly (the step returns the untouched configuration); a sweep with
zero successful updates leaves the whole configuration unchanged; and after any
sweep each particle's position is either its pre-sweep value or the result of
its own accepted proposal (made from a configuration in which that particle
still held its pre-sweep position) — no partially applied update. -/
theorem rollback_c3 {D N V : ℕ} (wavef : Wavefunction D N V) (params : VarParams V)
    (grads : Fin N → Fin D → Wavefunction D N V) (masses : Fin N → ℝ)
    (dt hbar step : ℝ) (poss : Positions D N) (draws : Fin N → (Fin D → ℝ) × ℝ) :
    (∀ (ps : Positions D N) (n : Fin N),
      (metroStep wavef params step (draws n).1 (draws n).2 ps n).2 = false →
      (metroStep wavef params step (draws n).1 (draws n).2 ps n).1 = ps) ∧
    (∀ (ps : Positions D N) (n : Fin N),
      (impStep wavef params grads masses dt hbar (draws n).1 (draws n).2 ps n).2 = false →
      (impStep wavef params grads masses dt hbar (draws n).1 (draws n).2 ps n).1 = ps) ∧
    ((MetropolisUpdate wavef params poss step draws).2 = 0 →
      (MetropolisUpdate wavef params poss step draws).1 = poss) ∧
    ((ImportanceSamplingUpdate wavef params grads masses dt hbar poss draws).2 = 0 →
      (ImportanceSamplingUpdate wavef params grads masses dt hbar poss draws).1 = poss) ∧
    (∀ n : Fin N, (MetropolisUpdate wavef params poss step draws).1 n = poss n ∨
      ∃ ps, ps n = poss n ∧
        (metroStep wavef params step (draws n).1 (draws n).2 ps n).2 = true ∧
        (MetropolisUpdate wavef params poss step draws).1 n =
          (metroStep wavef params step (draws n).1 (draws n).2 ps n).1 n) ∧
    (∀ n : Fin N,
      (ImportanceSamplingUpdate wavef params grads masses dt hbar poss draws).1 n = poss n ∨
      ∃ ps, ps n = poss n ∧
        (impStep wavef params grads masses dt hbar (draws n).1 (draws n).2 ps n).2 = true ∧
        (ImportanceSamplingUpdate wavef params grads masses dt hbar poss draws).1 n =
          (impStep wavef params grads masses dt hbar (draws n).1 (draws n).2 ps n).1 n) := by
  have hlocM : ∀ (ps : Positions D N) (n m : Fin N), m ≠ n →
      ((fun ps n => metroStep wavef params step (draws n).1 (draws n).2 ps n) ps n).1 m = ps m :=
    fun ps n m h => metroStep_other_eq wavef params step (draws n).1 (draws n).2 ps n m h
  have hrejM : ∀ (ps : Positions D N) (n : Fin N),
      ((fun ps n => metroStep wavef params step (draws n).1 (draws n).2 ps n) ps n).2 = false →
      ((fun ps n => metroStep wavef params step (draws n).1 (draws n).2 ps n) ps n).1 = ps :=
    fun ps n h => metroStep_rejected_eq wavef params step (draws n).1 (draws n).2 ps n h
  have hlocI : ∀ (ps : Positions D N) (n m : Fin N), m ≠ n →
      ((fun ps n => impStep wavef params grads masses dt hbar (draws n).1 (draws n).2 ps n) ps n).1 m = ps m :=
    fun ps n m h => impStep_other_eq wavef params grads masses dt hbar (draws n).1 (draws n).2 ps n m h
  have hrejI : ∀ (ps : Positions D N) (n : Fin N),
      ((fun ps n => impStep wavef params grads masses dt hbar (draws n).1 (draws n).2 ps n) ps n).2 = false →
      ((fun ps n => impStep wavef params grads masses dt hbar (draws n).1 (draws n).2 ps n) ps n).1 = ps :=
    fun ps n h => impStep_rejected_eq wavef params grads masses dt hbar (draws n).1 (draws n).2 ps n h
  refine ⟨fun ps n => metroStep_rejected_eq wavef params step (draws n).1 (draws n).2 ps n,
    fun ps n => impStep_rejected_eq wavef params grads masses dt hbar (draws n).1 (draws n).2 ps n,
    fun h => sweepAux_all_rejected hrejM (List.finRange N) (poss, 0) h,
    fun h => sweepAux_all_rejected hrejI (List.finRange N) (poss, 0) h,
    fun n => sweepAux_dichotomy hlocM hrejM (List.finRange N) (poss, 0) n
      (List.nodup_finRange N) (List.mem_finRange n),
    fun n => sweepAux_dichotomy hlocI hrejI (List.finRange N) (poss, 0) n
      (List.nodup_finRange N) (List.mem_finRange n)⟩

/-- Witness for C3 at a concrete input: one particle in one dimension with the
constant wavefunction `1` and an acceptance draw of `2`, so the Metropolis
question `2 < 1` fails, the move is rejected, and the configuration `x = 3`
is returned untouched; similarly for the importance-sampling step with zero
gradient and zero Gaussian draw. -/
theorem rollback_c3_witness :
    (metroStep (D := 1) (N := 1) (V := 1) (fun _ _ => 1) (fun _ => 0) 1
      (fun _ => 0) 2 (fun _ _ => 3) 0).1 = (fun _ _ => 3) ∧
    (impStep (D := 1) (N := 1) (V := 1) (fun _ _ => 1) (fun _ => 0)
      (fun _ _ => fun _ _ => 0) (fun _ => 1) 1 1 (fun _ => 0) 2 (fun _ _ => 3) 0).1 =
      (fun _ _ => 3) := by
  have h := rollback_c3 (D := 1) (N := 1) (V := 1) (fun _ _ => 1) (fun _ => 0)
    (fun _ _ => fun _ _ => 0) (fun _ => 1) 1 1 1 (fun _ _ => 3)
    (fun _ => (fun _ => 0, 2))
  constructor
  · refine h.1 (fun _ _ => 3) 0 ?_
    rw [metroStep]
    rw [if_neg]
    norm_num [Function.update_same]
  · refine h.2.1 (fun _ _ => 3) 0 ?_
    rw [impStep]
    rw [if_neg]
    simp only [DriftForceAnalytic, impProposal, Function.update_same]
    norm_num

/-- The step-size adaptation of the sampling loop (`vmcalgs.inl` line 110):
multiply the step by `11/10` if the observed acceptance rate exceeds the target
rate, by `9/10` otherwise. -/
noncomputable def adaptStep (step rate target : ℝ) : ℝ :=
  step * (if target < rate then 11/10 else 9/10)

/-- The mutable state of `VMCLocEnAndPoss_`: the configuration `poss`, the
Metropolis step size `step`, and the position reached in the random stream
(the state of `gen`). -/
structure VmcState (D N : ℕ) where
  poss : Positions D N
  step : ℝ
  rng : ℕ

/-- A fixed number of sweeps in a row, totalling the successful updates
(the burn-in loop of `vmcalgs.inl` lines 95-97 and the decorrelation loop of
lines 100-102). -/
def iterSweeps {D N : ℕ} (upd : VmcState D N → VmcState D N × ℕ) :
    ℕ → VmcState D N → VmcState D N × ℕ
  | 0, s => (s, 0)
  | k+1, s =>
    let r := upd s
    let r2 := iterSweeps upd k r.1
    (r2.1, r.2 + r2.2)

/-- The sampling loop of `VMCLocEnAndPoss_` (`vmcalgs.inl` lines 98-111): for
each requested energy, do `autoMoves` decorrelation sweeps, record one
(local energy, configuration) sample, then adapt the step size from the
acceptance rate `successes / (autoMoves * N)` observed over those sweeps. -/
noncomputable def vmcSamples {D N : ℕ} (upd : VmcState D N → VmcState D N × ℕ)
    (locE : Positions D N → ℝ) (autoMoves : ℕ) (target : ℝ) :
    ℕ → VmcState D N → List (ℝ × Positions D N)
  | 0, _ => []
  | k+1, s =>
    let r := iterSweeps upd autoMoves s
    let rate : ℝ := (r.2 : ℝ) / ((autoMoves : ℝ) * (N : ℝ))
    (locE r.1.poss, r.1.poss) ::
      vmcSamples upd locE autoMoves target k
        { r.1 with step := adaptStep r.1.step rate target }

/-- The length of the smallest coordinate bound, used for the initial step
(`vmcalgs.inl` lines 67-71). -/
noncomputable def smallestBoundLength {D : ℕ} (bounds : Fin D → ℝ × ℝ) : ℝ :=
  (((List.finRange D).map (fun d => (bounds d).2 - (bounds d).1)).min?).getD 0

/-- Embeds `VMCLocEnAndPoss_` (`vmcalgs.inl` lines 53-114).  The
`assert(numEnergies > 0)` precondition is modelled by an `Option` result
(`none` is the fatal failure).  The sweep counts `burnIn`
(`movesForgetICs_vmcLEPs`) and `autoMoves` (`autocorrelationMoves_vmcLEPs`),
the target acceptance rate and `stepDenom` (`stepDenom_vmcLEPs`) are constants
of the missing header `vmcalgs.hpp`, passed here as parameters; `upd` and
`locE` mirror the `std::function` values `update` and `localEnergy` selected by
the `useImpSamp`/`useAnalytical` flags. -/
noncomputable def VMCLocEnAndPoss {D N : ℕ} (upd : VmcState D N → VmcState D N × ℕ)
    (locE : Positions D N → ℝ) (burnIn autoMoves : ℕ) (target stepDenom : ℝ)
    (bounds : Fin D → ℝ × ℝ) (poss : Positions D N) (numEnergies : ℤ) (rng : ℕ) :
    Option (List (ℝ × Positions D N)) :=
  if numEnergies ≤ 0 then none
  else
    let step : ℝ := smallestBoundLength bounds / stepDenom
    let s0 := (iterSweeps upd burnIn ⟨poss, step, rng⟩).1
    some (vmcSamples upd locE autoMoves target numEnergies.toNat s0)

lemma vmcSamples_length {D N : ℕ} (upd : VmcState D N → VmcState D N × ℕ)
    (locE : Positions D N → ℝ) (autoMoves : ℕ) (target : ℝ) :
    ∀ (k : ℕ) (s : VmcState D N),
      (vmcSamples upd locE autoMoves target k s).length = k := by
  intro k
  induction k with
  | zero => intro s; rfl
  | succ k ih => intro s; simp only [vmcSamples, List.length_cons, ih]

/-- Claim C7: `VMCLocEnAndPoss_` requires a positive requested sample count
(`assert(numEnergies > 0)`; a non-positive count is a fatal precondition
failure, modelled by `none`), and for every positive `numEnergies` it returns
the ordered sequence of produced (local energy, configuration) samples whose
length is exactly `numEnergies`. -/
theorem vmc_sample_count_c7 {D N : ℕ} (upd : VmcState D N → VmcState D N × ℕ)
    (locE : Positions D N → ℝ) (burnIn autoMoves : ℕ) (target stepDenom : ℝ)
    (bounds : Fin D → ℝ × ℝ) (poss : Positions D N) (numEnergies : ℤ) (rng : ℕ) :
    (numEnergies ≤ 0 →
      VMCLocEnAndPoss upd locE burnIn autoMoves target stepDenom bounds poss numEnergies rng
        = none) ∧
    (0 < numEnergies →
      ∃ l, VMCLocEnAndPoss upd locE burnIn autoMoves target stepDenom bounds poss numEnergies rng
          = some l ∧ (l.length : ℤ) = numEnergies) := by
  constructor
  · intro h
    rw [VMCLocEnAndPoss, if_pos h]
  · intro h
    refine ⟨vmcSamples upd locE autoMoves target numEnergies.toNat
      ((iterSweeps upd burnIn
        ⟨poss, smallestBoundLength bounds / stepDenom, rng⟩).1), ?_, ?_⟩
    · rw [VMCLocEnAndPoss, if_neg (by omega)]
    · rw [vmcSamples_length]
      omega

/-- Witness for C7 at a concrete input: trivial one-particle dynamics, two
requested energies give a sample list of length two, and `-1` requested
energies are a fatal precondition failure. -/
theorem vmc_sample_count_c7_witness :
    (∃ l, VMCLocEnAndPoss (D := 1) (N := 1) (fun s => (s, 0)) (fun _ => 0) 0 1 (1/2) 1
        (fun _ => (0, 1)) (fun _ _ => 0) 2 0 = some l ∧ (l.length : ℤ) = 2) ∧
    VMCLocEnAndPoss (D := 1) (N := 1) (fun s => (s, 0)) (fun _ => 0) 0 1 (1/2) 1
        (fun _ => (0, 1)) (fun _ _ => 0) (-1) 0 = none := by
  constructor
  · exact (vmc_sample_count_c7 (fun s => (s, 0)) (fun _ => 0) 0 1 (1/2) 1
      (fun _ => (0, 1)) (fun _ _ => 0) 2 0).2 (by norm_num)
  · exact (vmc_sample_count_c7 (fun s => (s, 0)) (fun _ => 0) 0 1 (1/2) 1
      (fun _ => (0, 1)) (fun _ _ => 0) (-1) 0).1 (by norm_num)

/-- The step sizes seen at successive sampling iterations, when the observed
acceptance rates are `rates`: each iteration applies the `adaptStep` update of
`vmcalgs.inl` line 110 to the previous step. -/
noncomputable def stepIter (target : ℝ) (rates : ℕ → ℝ) (step0 : ℝ) : ℕ → ℝ
  | 0 => step0
  | k+1 => adaptStep (stepIter target rates step0 k) (rates k) target

lemma stepIter_pos (target : ℝ) (rates : ℕ → ℝ) (step0 : ℝ) (h0 : 0 < step0) :
    ∀ k, 0 < stepIter target rates step0 k := by
  intro k
  induction k with
  | zero => exact h0
  | succ k ih =>
    show 0 < adaptStep _ _ _
    rw [adaptStep]
    split <;> positivity

/-- Claim C6: after each recorded sample the step size is updated
multiplicatively, by the fixed factor `11/10 > 1` when the observed acceptance
rate exceeds the target rate and by the fixed factor `9/10 < 1` otherwise
(`adaptStep`, which is exactly the update applied by the sampling loop
`vmcSamples`); hence from a positive initial step, if the rate exceeds the
target at every iteration the step sequence is strictly increasing, and if it
never exceeds the target it is strictly decreasing. -/
theorem step_adaptation_c6 (target step0 : ℝ) (rates : ℕ → ℝ) (h0 : 0 < step0) :
    ((1:ℝ) < 11/10 ∧ (9:ℝ)/10 < 1) ∧
    (∀ step rate : ℝ, 0 < step →
      (target < rate → adaptStep step rate target = step * (11/10) ∧
        step < adaptStep step rate target) ∧
      (¬ target < rate → adaptStep step rate target = step * (9/10) ∧
        adaptStep step rate target < step)) ∧
    ((∀ k, target < rates k) → StrictMono (stepIter target rates step0)) ∧
    ((∀ k, ¬ target < rates k) → StrictAnti (stepIter target rates step0)) := by
  have hfact : ∀ step rate : ℝ, 0 < step →
      (target < rate → adaptStep step rate target = step * (11/10) ∧
        step < adaptStep step rate target) ∧
      (¬ target < rate → adaptStep step rate target = step * (9/10) ∧
        adaptStep step rate target < step) := by
    intro step rate hstep
    constructor
    · intro hr
      rw [adaptStep, if_pos hr]
      constructor
      · rfl
      · nlinarith
    · intro hr
      rw [adaptStep, if_neg hr]
      constructor
      · rfl
      · nlinarith
  refine ⟨⟨by norm_num, by norm_num⟩, hfact, ?_, ?_⟩
  · intro hr
    apply strictMono_nat_of_lt_succ
    intro k
    exact ((hfact _ _ (stepIter_pos target rates step0 h0 k)).1 (hr k)).2
  · intro hr
    apply strictAnti_nat_of_succ_lt
    intro k
    exact ((hfact _ _ (stepIter_pos target rates step0 h0 k)).2 (hr k)).2

/-- Witness for C6 at a concrete input: with target rate `0`, observed rates
constantly `1` and initial step `1`, the step after one iteration is `11/10`,
strictly larger; with observed rates constantly `0` and target `1`, it is
`9/10`, strictly smaller. -/
theorem step_adaptation_c6_witness :
    stepIter 0 (fun _ => 1) 1 0 < stepIter 0 (fun _ => 1) 1 1 ∧
    stepIter 1 (fun _ => 0) 1 1 < stepIter 1 (fun _ => 0) 1 0 := by
  constructor
  · exact (step_adaptation_c6 0 1 (fun _ => 1) (by norm_num)).2.2.1
      (fun k => by norm_num) (by norm_num : (0:ℕ) < 1)
  · exact (step_adaptation_c6 1 1 (fun _ => 0) (by norm_num)).2.2.2
      (fun k => by norm_num) (by norm_num : (0:ℕ) < 1)

/-- The Metropolis `update` closure of `VMCLocEnAndPoss_` (`vmcalgs.inl` lines
87-90): one `MetropolisUpdate_` sweep at the current step size.  Each sweep
consumes `N*(D+1)` uniform draws from the stream `u`: `D` coordinate draws and
one acceptance draw per particle, in particle order. -/
noncomputable def metroUpd {D N V : ℕ} (wavef : Wavefunction D N V)
    (params : VarParams V) (u : ℕ → ℝ) : VmcState D N → VmcState D N × ℕ :=
  fun s =>
    let r := MetropolisUpdate wavef params s.poss s.step
      (fun n => (fun d => u (s.rng + n.val * (D + 1) + d.val),
        u (s.rng + n.val * (D + 1) + D)))
    (⟨r.1, s.step, s.rng + N * (D + 1)⟩, r.2)

/-- The accumulation of `FindPeak_`'s candidate loop (`vmchelpers.inl` lines
72-87): for each sampled candidate, replace the current `result` when the
candidate has larger potential and its wavefunction exceeds the floor
`minWavef_peakSearch`.  The parallel `std::for_each` with its mutex-guarded
read-modify-write is modelled by this sequential accumulation. -/
noncomputable def peakFold {D N V : ℕ} (wavef : Wavefunction D N V)
    (params : VarParams V) (pot : Positions D N → ℝ) (minPsi : ℝ)
    (cands : ℕ → Positions D N) : List ℕ → Positions D N → Positions D N
  | [], r => r
  | i :: rest, r =>
    peakFold wavef params pot minPsi cands rest
      (if pot r < pot (cands i) ∧ minPsi < wavef (cands i) params then cands i else r)

/-- Embeds `FindPeak_` (`vmchelpers.inl` lines 54-89): starting from the
configuration with every particle at the centre of the bounds, keep among the
`numPoints` sampled candidates one where the potential is largest but the
wavefunction is not too small.  `cands i` is the i-th uniformly sampled
candidate configuration. -/
noncomputable def FindPeak {D N V : ℕ} (wavef : Wavefunction D N V)
    (params : VarParams V) (pot : Positions D N → ℝ) (bounds : Fin D → ℝ × ℝ)
    (numPoints : ℕ) (cands : ℕ → Positions D N) (minPsi : ℝ) : Positions D N :=
  let center : Positions D N := fun _ d => ((bounds d).2 + (bounds d).1) / 2
  peakFold wavef params pot minPsi cands (List.range numPoints) center

lemma metroStep_zero_wavef {D N V : ℕ} (params : VarParams V) (step : ℝ)
    (offs : Fin D → ℝ) (ps : Positions D N) (n : Fin N) :
    metroStep (fun _ _ => (0:ℝ)) params step offs 0 ps n = (ps, false) := by
  rw [metroStep]
  rw [if_neg]
  norm_num

lemma sweepAux_id {D N : ℕ} {stepF : Positions D N → Fin N → Positions D N × Bool}
    (h : ∀ ps n, stepF ps n = (ps, false)) :
    ∀ (L : List (Fin N)) (st : Positions D N × ℕ), sweepAux stepF L st = st := by
  intro L
  induction L with
  | nil => intro st; rfl
  | cons n rest ih =>
    intro st
    simp only [sweepAux, h, Bool.false_eq_true, if_false, add_zero]
    exact ih (st.1, st.2)

lemma metroUpd_zero_wavef {D N V : ℕ} (params : VarParams V) (s : VmcState D N) :
    metroUpd (fun _ _ => (0:ℝ)) params (fun _ => 0) s
      = (⟨s.poss, s.step, s.rng + N * (D + 1)⟩, 0) := by
  rw [metroUpd]
  have h := sweepAux_id
    (fun ps n => metroStep_zero_wavef (V := V) params s.step
      (fun d => (0:ℝ)) ps n) (List.finRange N) (s.poss, 0)
  rw [MetropolisUpdate]
  simp only at h ⊢
  rw [h]

lemma iterSweeps_metro_zero {D N V : ℕ} (params : VarParams V) :
    ∀ (k : ℕ) (s : VmcState D N),
      (iterSweeps (metroUpd (fun _ _ => (0:ℝ)) params (fun _ => 0)) k s).1.poss
        = s.poss := by
  intro k
  induction k with
  | zero => intro s; rfl
  | succ k ih =>
    intro s
    simp only [iterSweeps]
    rw [ih, metroUpd_zero_wavef]

lemma vmc_metro_zero_run {D N V : ℕ} (params : VarParams V)
    (locE : Positions D N → ℝ) (burnIn autoMoves : ℕ) (target sd : ℝ)
    (bounds : Fin D → ℝ × ℝ) (poss : Positions D N) (rng : ℕ) :
    VMCLocEnAndPoss (metroUpd (fun _ _ => (0:ℝ)) params (fun _ => 0)) locE burnIn
      autoMoves target sd bounds poss 1 rng = some [(locE poss, poss)] := by
  rw [VMCLocEnAndPoss, if_neg (by norm_num)]
  show some (vmcSamples _ _ _ _ (Int.toNat 1) _) = _
  rw [show Int.toNat 1 = 1 from rfl]
  rw [vmcSamples, vmcSamples]
  rw [iterSweeps_metro_zero, iterSweeps_metro_zero]

lemma peakFold_pot_mono {D N V : ℕ} (wavef : Wavefunction D N V)
    (params : VarParams V) (pot : Positions D N → ℝ) (minPsi : ℝ)
    (cands : ℕ → Positions D N) :
    ∀ (L : List ℕ) (r : Positions D N),
      pot r ≤ pot (peakFold wavef params pot minPsi cands L r) := by
  intro L
  induction L with
  | nil => intro r; exact le_refl _
  | cons i rest ih =>
    intro r
    rw [peakFold]
    refine le_trans ?_ (ih _)
    split
    · next h => exact le_of_lt h.1
    · exact le_refl _

lemma peakFold_max {D N V : ℕ} (wavef : Wavefunction D N V)
    (params : VarParams V) (pot : Positions D N → ℝ) (minPsi : ℝ)
    (cands : ℕ → Positions D N) :
    ∀ (L : List ℕ) (r : Positions D N) (i : ℕ), i ∈ L →
      minPsi < wavef (cands i) params →
      pot (cands i) ≤ pot (peakFold wavef params pot minPsi cands L r) := by
  intro L
  induction L with
  | nil => intro r i h; exact absurd h (List.not_mem_nil i)
  | cons j rest ih =>
    intro r i hmem hfloor
    rw [peakFold]
    rcases List.mem_cons.mp hmem with heq | hmem2
    · subst heq
      by_cases hcond : pot r < pot (cands i) ∧ minPsi < wavef (cands i) params
      · rw [if_pos hcond]
        exact peakFold_pot_mono wavef params pot minPsi cands rest _
      · have hle : pot (cands i) ≤ pot r := by
          by_contra hlt
          exact hcond ⟨lt_of_not_le hlt, hfloor⟩
        rw [if_neg hcond]
        exact le_trans hle (peakFold_pot_mono wavef params pot minPsi cands rest _)
    · exact ih _ i hmem2 hfloor

lemma peakFold_mem {D N V : ℕ} (wavef : Wavefunction D N V)
    (params : VarParams V) (pot : Positions D N → ℝ) (minPsi : ℝ)
    (cands : ℕ → Positions D N) :
    ∀ (L : List ℕ) (r : Positions D N),
      peakFold wavef params pot minPsi cands L r = r ∨
      ∃ i ∈ L, peakFold wavef params pot minPsi cands L r = cands i := by
  intro L
  induction L with
  | nil => intro r; exact Or.inl rfl
  | cons j rest ih =>
    intro r
    rw [peakFold]
    rcases ih (if pot r < pot (cands j) ∧ minPsi < wavef (cands j) params then cands j else r)
      with h1 | ⟨i, hi, hv⟩
    · rw [h1]
      split
      · exact Or.inr ⟨j, List.mem_cons_self j rest, rfl⟩
      · exact Or.inl rfl
    · exact Or.inr ⟨i, List.mem_cons_of_mem j hi, hv⟩

/-- Claim C8 (refuted): the chain's initial configuration is supplied by the
caller, not chosen by a peak search inside the sampling run.  With the
all-rejecting wavefunction `0`, two runs of `VMCLocEnAndPoss_` that differ only
in the caller-supplied starting configuration record different configurations —
each run's sample sits exactly at its own supplied start. -/
theorem vmc_start_config_c8_counterexample :
    VMCLocEnAndPoss (D := 1) (N := 1)
        (metroUpd (V := 1) (fun _ _ => (0:ℝ)) (fun _ => 0) (fun _ => 0)) (fun _ => 0)
        1 1 (1/2) 1 (fun _ => (0, 1)) (fun _ _ => 5) 1 0
      = some [(0, fun _ _ => 5)] ∧
    VMCLocEnAndPoss (D := 1) (N := 1)
        (metroUpd (V := 1) (fun _ _ => (0:ℝ)) (fun _ => 0) (fun _ => 0)) (fun _ => 0)
        1 1 (1/2) 1 (fun _ => (0, 1)) (fun _ _ => 7) 1 0
      = some [(0, fun _ _ => 7)] ∧
    ((fun _ _ => (5:ℝ)) : Positions 1 1) ≠ ((fun _ _ => 7) : Positions 1 1) := by
  refine ⟨vmc_metro_zero_run (fun _ => 0) (fun _ => 0) 1 1 (1/2) 1 _ _ 0,
    vmc_metro_zero_run (fun _ => 0) (fun _ => 0) 1 1 (1/2) 1 _ _ 0, ?_⟩
  intro h
  have h5 := congrFun (congrFun h 0) 0
  norm_num at h5

/-- Claim C8 (amended): peak-finding is not performed by the sampling run
itself: `VMCLocEnAndPoss_` starts its chain at the caller-supplied
configuration (with the all-rejecting wavefunction `0`, the recorded sample
sits exactly at the supplied start, whatever it is).  Peak-finding is the
separate helper `FindPeak_`, used by callers to build that starting
configuration: among the `numPoints` uniformly sampled candidates it returns
one maximizing the potential subject to the wavefunction exceeding the small
positive floor (starting from the bounds' centre), so every candidate above the
floor has potential at most that of the returned configuration. -/
theorem vmc_start_config_c8 {D N V : ℕ} (params : VarParams V)
    (locE : Positions D N → ℝ) (burnIn autoMoves : ℕ) (target sd : ℝ)
    (bounds : Fin D → ℝ × ℝ) (poss : Positions D N) (rng : ℕ)
    (wavef : Wavefunction D N V) (pot : Positions D N → ℝ) (numPoints : ℕ)
    (cands : ℕ → Positions D N) (minPsi : ℝ) :
    (VMCLocEnAndPoss (metroUpd (fun _ _ => (0:ℝ)) params (fun _ => 0)) locE burnIn
        autoMoves target sd bounds poss 1 rng = some [(locE poss, poss)]) ∧
    (∀ i, i < numPoints → minPsi < wavef (cands i) params →
      pot (cands i) ≤ pot (FindPeak wavef params pot bounds numPoints cands minPsi)) ∧
    (FindPeak wavef params pot bounds numPoints cands minPsi
        = (fun _ d => ((bounds d).2 + (bounds d).1) / 2) ∨
      ∃ i, i < numPoints ∧
        FindPeak wavef params pot bounds numPoints cands minPsi = cands i) := by
  refine ⟨vmc_metro_zero_run params locE burnIn autoMoves target sd bounds poss rng, ?_, ?_⟩
  · intro i hi hfloor
    exact peakFold_max wavef params pot minPsi cands (List.range numPoints) _ i
      (List.mem_range.mpr hi) hfloor
  · rcases peakFold_mem wavef params pot minPsi cands (List.range numPoints)
        (fun _ d => ((bounds d).2 + (bounds d).1) / 2) with h1 | ⟨i, hi, hv⟩
    · exact Or.inl h1
    · exact Or.inr ⟨i, List.mem_range.mp hi, hv⟩

/-- Witness for the amended C8 at a concrete input: one candidate at `x = 2`
with potential `x ↦ x` above the centre's, wavefunction constantly `1` above
the floor `1/2`; the peak search returns a configuration of potential at least
`2`, and the sampling run started from `x = 5` records its sample at `x = 5`. -/
theorem vmc_start_config_c8_witness :
    VMCLocEnAndPoss (D := 1) (N := 1)
        (metroUpd (V := 1) (fun _ _ => (0:ℝ)) (fun _ => 0) (fun _ => 0)) (fun _ => 0)
        1 1 (1/2) 1 (fun _ => (0, 1)) (fun _ _ => 5) 1 0
      = some [(0, fun _ _ => 5)] ∧
    (2:ℝ) ≤ (fun ps : Positions 1 1 => ps 0 0)
      (FindPeak (D := 1) (N := 1) (V := 1) (fun _ _ => 1) (fun _ => 0)
        (fun ps => ps 0 0) (fun _ => (0, 1)) 1 (fun _ => fun _ _ => 2) (1/2)) := by
  have h := vmc_start_config_c8 (D := 1) (N := 1) (V := 1) (fun _ => 0) (fun _ => 0)
    1 1 (1/2) 1 (fun _ => (0, 1)) (fun _ _ => 5) 0 (fun _ _ => 1)
    (fun ps => ps 0 0) 1 (fun _ => fun _ _ => 2) (1/2)
  refine ⟨h.1, ?_⟩
  have h2 := h.2.1 0 (by norm_num) (by norm_num)
  simpa using h2

/-- The arithmetic mean of a list of reals: what the boost `mean` accumulator
feature used by `statistics.inl` computes, over exact arithmetic. -/
noncomputable def listMean (xs : List ℝ) : ℝ := xs.sum / xs.length

/-- The population variance of a list of reals: what the boost `variance`
accumulator feature used by `statistics.inl` computes, over exact
arithmetic. -/
noncomputable def listVariance (xs : List ℝ) : ℝ :=
  ((xs.map (fun x => (x - listMean xs) ^ 2)).sum) / xs.length

/-- The block-size increment of `BlockingAnalysis` (`statistics.inl` lines 41
and 79-81): the loop increments `blockSize += 2`, but at the end of the first
iteration `if (blockSize == 1) blockSize = 0;` resets it so the next size is
2; afterwards the sizes go 4, 6, 8, ... -/
def nextBlockSize (s : ℕ) : ℕ := if s = 1 then 2 else s + 2

/-- The list of block sizes visited by the `for` loop of `BlockingAnalysis`
while `blockSize <= numEnergies / 2`; `fuel` bounds the iteration count. -/
def blockSizesAux (bound : ℕ) : ℕ → ℕ → List ℕ
  | 0, _ => []
  | fuel+1, s =>
    if s ≤ bound then s :: blockSizesAux bound fuel (nextBlockSize s) else []

/-- All block sizes tested by `BlockingAnalysis` on `M` energies. -/
def blockSizes (M : ℕ) : List ℕ := blockSizesAux (M / 2) (M / 2 + 1) 1

/-- The block means built by `BlockingAnalysis` for one block size
(`statistics.inl` lines 43-68): the means of the `numEnergies / blockSize`
full blocks, and — when `numEnergies % blockSize != 0` — one extra mean over
the slice `[numOfBlocks, numOfBlocks + reminder)` of the energies (the code
advances `energies.begin()` by `numOfBlocks`, not by
`numOfBlocks * blockSize`). -/
noncomputable def blockMeansOf (energies : List ℝ) (bs : ℕ) : List ℝ :=
  let numOfBlocks := energies.length / bs
  let reminder := energies.length % bs
  (List.range numOfBlocks).map
    (fun b => ((energies.drop (b * bs)).take bs).sum / (bs : ℝ)) ++
  (if reminder = 0 then []
   else [((energies.drop numOfBlocks).take reminder).sum / (reminder : ℝ)])

/-- Embeds `BlockingResult` of `types.hpp`. -/
structure BlockingResult where
  sizes : List ℕ
  means : List ℝ
  stdDevs : List ℝ

/-- Embeds `BlockingAnalysis` of `statistics.inl` (lines 34-86): for every
tested block size it records the size, the boost mean of the block means, and
`sqrt` of the boost (population) variance of the block means. -/
noncomputable def BlockingAnalysis (energies : List ℝ) : BlockingResult :=
  let sizes := blockSizes energies.length
  { sizes := sizes
    means := sizes.map (fun bs => listMean (blockMeansOf energies bs))
    stdDevs := sizes.map (fun bs => Real.sqrt (listVariance (blockMeansOf energies bs))) }

lemma blockSizesAux_mem (bound : ℕ) :
    ∀ (fuel s x : ℕ), 2 ≤ s → s % 2 = 0 → bound < s + fuel →
      (x ∈ blockSizesAux bound fuel s ↔ s ≤ x ∧ x ≤ bound ∧ x % 2 = 0) := by
  intro fuel
  induction fuel with
  | zero =>
    intro s x h2 hev hb
    simp only [blockSizesAux, List.not_mem_nil, false_iff]
    omega
  | succ fuel ih =>
    intro s x h2 hev hb
    rw [blockSizesAux]
    by_cases hsb : s ≤ bound
    · rw [if_pos hsb]
      have hnext : nextBlockSize s = s + 2 := by
        rw [nextBlockSize, if_neg (by omega)]
      rw [List.mem_cons, hnext, ih (s + 2) x (by omega) (by omega) (by omega)]
      omega
    · rw [if_neg hsb]
      simp only [List.not_mem_nil, false_iff]
      omega

lemma blockSizes_mem (M x : ℕ) :
    x ∈ blockSizes M ↔ (x = 1 ∨ (2 ≤ x ∧ x % 2 = 0)) ∧ x ≤ M / 2 := by
  rw [blockSizes, blockSizesAux]
  by_cases h1 : 1 ≤ M / 2
  · rw [if_pos h1]
    have hnext : nextBlockSize 1 = 2 := by rw [nextBlockSize, if_pos rfl]
    rw [List.mem_cons, hnext, blockSizesAux_mem (M / 2) (M / 2) 2 x
      (by omega) (by omega) (by omega)]
    omega
  · rw [if_neg h1]
    simp only [List.not_mem_nil, false_iff]
    omega

/-- Claim C4 (refuted): on 12 energies the tested block sizes are
`[1, 2, 4, 6]` — the size 6 is tested although it is not a power of two (the
powers of two not exceeding 12/2 are 1, 2, 4). -/
theorem blocking_c4_counterexample :
    (BlockingAnalysis (List.replicate 12 (0:ℝ))).sizes = [1, 2, 4, 6] ∧
    6 ∈ (BlockingAnalysis (List.replicate 12 (0:ℝ))).sizes ∧
    ∀ k : ℕ, 2 ^ k ≠ 6 := by
  have hsz : (BlockingAnalysis (List.replicate 12 (0:ℝ))).sizes = [1, 2, 4, 6] := by
    show blockSizes (List.replicate 12 (0:ℝ)).length = [1, 2, 4, 6]
    rw [List.length_replicate]
    decide
  refine ⟨hsz, by rw [hsz]; norm_num, ?_⟩
  intro k h
  match k with
  | 0 => exact absurd h (by norm_num)
  | 1 => exact absurd h (by norm_num)
  | 2 => exact absurd h (by norm_num)
  | (n+3) =>
    have h8 : 8 ∣ 2 ^ (n + 3) := by
      have : (2:ℕ) ^ (n + 3) = 2 ^ n * 8 := by ring
      exact ⟨2 ^ n, by omega⟩
    omega

lemma sum_sq_sub (xs : List ℝ) (m : ℝ) :
    (xs.map (fun x => (x - m) ^ 2)).sum
      = (xs.map (fun x => x ^ 2)).sum - 2 * m * xs.sum + (xs.length : ℝ) * m ^ 2 := by
  induction xs with
  | nil => simp
  | cons a l ih =>
    simp only [List.map_cons, List.sum_cons, List.length_cons, ih]
    push_cast
    ring

lemma listVariance_eq (xs : List ℝ) :
    listVariance xs = listMean (xs.map (fun x => x ^ 2)) - (listMean xs) ^ 2 := by
  by_cases h : xs.length = 0
  · rw [List.length_eq_zero] at h
    subst h
    simp [listVariance, listMean]
  · have hn : (xs.length : ℝ) ≠ 0 := Nat.cast_ne_zero.mpr h
    rw [listVariance, sum_sq_sub]
    simp only [listMean, List.length_map]
    field_simp
    ring

lemma zip_map_pair {α β : Type} (l : List α) (f : α → β) :
    ∀ p ∈ l.zip (l.map f), p.2 = f p.1 := by
  induction l with
  | nil => intro p h; exact absurd h (List.not_mem_nil p)
  | cons a l ih =>
    intro p hp
    rw [List.map_cons, List.zip_cons_cons, List.mem_cons] at hp
    rcases hp with h | h
    · rw [h]
    · exact ih p h

lemma fullBlock_length (energies : List ℝ) (bs b : ℕ) (hbs : 1 ≤ bs)
    (hb : b < energies.length / bs) :
    ((energies.drop (b * bs)).take bs).length = bs := by
  rw [List.length_take, List.length_drop]
  have h1 : (b + 1) * bs ≤ energies.length :=
    le_trans (Nat.mul_le_mul_right _ (by omega)) (Nat.div_mul_le_self _ _)
  have h2 : b * bs + bs ≤ energies.length := by
    have : (b + 1) * bs = b * bs + bs := by ring
    omega
  omega

/-- Claim C4 (amended): `BlockingAnalysis` tests the block sizes 1, 2 and then
every even size 4, 6, 8, ... not exceeding `M/2` (not the powers of two); for
each tested size it partitions the sequence into `M / blockSize` contiguous
full blocks of exactly that size — plus, when the size does not divide `M`, one
extra mean over the slice `[M/blockSize, M/blockSize + M%blockSize)` — and
returns one (blockSize, mean, stdError) triple per tested size, where the mean
is the average of the block means and the stdError is the population standard
deviation of the block means, `sqrt(mean of squares - square of mean)` (no
division by `sqrt(numberOfBlocks - 1)`). -/
theorem blocking_c4_amended (energies : List ℝ) :
    (∀ x, x ∈ (BlockingAnalysis energies).sizes ↔
      (x = 1 ∨ (2 ≤ x ∧ x % 2 = 0)) ∧ x ≤ energies.length / 2) ∧
    (BlockingAnalysis energies).means.length = (BlockingAnalysis energies).sizes.length ∧
    (BlockingAnalysis energies).stdDevs.length = (BlockingAnalysis energies).sizes.length ∧
    (∀ bs, 1 ≤ bs → ∀ b, b < energies.length / bs →
      ((energies.drop (b * bs)).take bs).length = bs) ∧
    (∀ p ∈ (BlockingAnalysis energies).sizes.zip (BlockingAnalysis energies).means,
      p.2 = listMean (blockMeansOf energies p.1)) ∧
    (∀ p ∈ (BlockingAnalysis energies).sizes.zip (BlockingAnalysis energies).stdDevs,
      p.2 = Real.sqrt (listMean ((blockMeansOf energies p.1).map (fun x => x ^ 2))
        - (listMean (blockMeansOf energies p.1)) ^ 2)) := by
  refine ⟨fun x => blockSizes_mem energies.length x, List.length_map _ _,
    List.length_map _ _, fun bs hbs b hb => fullBlock_length energies bs b hbs hb, ?_, ?_⟩
  · exact zip_map_pair (blockSizes energies.length)
      (fun bs => listMean (blockMeansOf energies bs))
  · intro p hp
    have h := zip_map_pair (blockSizes energies.length)
      (fun bs => Real.sqrt (listVariance (blockMeansOf energies bs))) p hp
    rw [h]
    simp only [listVariance_eq]

/-- Witness for the amended C4 at a concrete input: on the four energies
`[1, 2, 3, 4]` the size 2 is tested (it is even and at most `4/2`), and block
index 1 of size 2 is a full block of length exactly 2. -/
theorem blocking_c4_amended_witness :
    2 ∈ (BlockingAnalysis [1, 2, 3, 4]).sizes ∧
    ((([1, 2, 3, 4] : List ℝ).drop (1 * 2)).take 2).length = 2 := by
  have h := blocking_c4_amended [1, 2, 3, 4]
  constructor
  · exact (h.1 2).mpr (by norm_num)
  · exact h.2.2.2.1 2 (by norm_num) 1 (by norm_num)

/-- The values drawn by one call of `GenerateBootstrapSample`
(`statistics.inl` lines 93-96): `M` energies indexed by the uniform integer
draws `idx start, idx (start+1), ...` of `std::uniform_int_distribution(0, M-1)`
taken from stream position `start`. -/
noncomputable def bootDrawBlock (energies : List ℝ) (M : ℕ) (idx : ℕ → ℕ)
    (start : ℕ) : List ℝ :=
  (List.range M).map (fun i => energies.getD (idx (start + i)) 0)

/-- The `std::generate` loops of `BootstrapAnalysis` (`statistics.inl` lines
127-135): each round draws `M` more values into the same accumulator (the
`AccumulatorFunc &accumulator` of `GenerateBootstrapSample` is shared across
calls and never reset) and records `stat` of everything accumulated so far. -/
noncomputable def bootRounds (energies : List ℝ) (M : ℕ) (idx : ℕ → ℕ)
    (stat : List ℝ → ℝ) : ℕ → ℕ → List ℝ → List ℝ
  | 0, _, _ => []
  | k+1, start, acc =>
    let acc2 := acc ++ bootDrawBlock energies M idx start
    stat acc2 :: bootRounds energies M idx stat k (start + M) acc2

/-- Embeds `ConfInterval` of `types.hpp`. -/
structure ConfInterval where
  min : ℝ
  max : ℝ

/-- Embeds `BootstrapResult` of `types.hpp`. -/
structure BootstrapResult where
  mean : ℝ
  stdDev : ℝ
  confInterval : ConfInterval

/-- Embeds `BootstrapAnalysis` of `statistics.inl` (lines 113-154): `K` rounds
of `M` uniform draws fill `bootstrapMeans` through the shared accumulator
`accBlocksMeans`, then `K` further rounds (continuing in the same random
stream) fill `bootstrapVars` through `accBlocksVars`; the result is the mean of
the recorded means, `sqrt((mean of the recorded variances) / (M - 1))`, and the
confidence interval `[min, max]` over the recorded means (the boost `min`/`max`
features of `accBlocksMeansCleared`). -/
noncomputable def BootstrapAnalysis (energies : List ℝ) (K : ℕ) (idx : ℕ → ℕ) :
    BootstrapResult :=
  let M := energies.length
  let bootstrapMeans := bootRounds energies M idx listMean K 0 []
  let bootstrapVars := bootRounds energies M idx listVariance K (K * M) []
  { mean := listMean bootstrapMeans
    stdDev := Real.sqrt (listMean bootstrapVars / ((M : ℝ) - 1))
    confInterval :=
      { min := (bootstrapMeans.min?).getD 0
        max := (bootstrapMeans.max?).getD 0 } }

/-- Claim C5 (refuted): on the energies `[0, 2]` with `K = 2` resamples and the
index draws `0, 0, 1, 1, 0, 0, 0, 0`, the recorded means are `[0, 1]` (the
accumulator is cumulative), so the returned mean is `1/2` and the returned
standard deviation is `0`, yet `confInterval.min` is `0`, not
`mean - 1.96 * stdDev = 1/2`. -/
theorem bootstrap_c5_counterexample :
    (BootstrapAnalysis [0, 2] 2 (fun i => if i = 2 ∨ i = 3 then 1 else 0)).confInterval.min ≠
      (BootstrapAnalysis [0, 2] 2 (fun i => if i = 2 ∨ i = 3 then 1 else 0)).mean -
        (1.96 : ℝ) *
          (BootstrapAnalysis [0, 2] 2 (fun i => if i = 2 ∨ i = 3 then 1 else 0)).stdDev := by
  have hM : ([0, 2] : List ℝ).length = 2 := rfl
  rw [BootstrapAnalysis]
  norm_num [bootRounds, bootDrawBlock, List.range_succ, listMean, listVariance, List.min?]

lemma bootRounds_eq (energies : List ℝ) (M : ℕ) (idx : ℕ → ℕ)
    (stat : List ℝ → ℝ) :
    ∀ (k start : ℕ) (acc : List ℝ),
      bootRounds energies M idx stat k start acc =
        (List.range k).map (fun j => stat (acc ++
          (List.range ((j + 1) * M)).map (fun i => energies.getD (idx (start + i)) 0))) := by
  intro k
  induction k with
  | zero => intro start acc; rfl
  | succ k ih =>
    intro start acc
    rw [bootRounds, ih (start + M) (acc ++ bootDrawBlock energies M idx start),
      List.range_succ_eq_map, List.map_cons, List.map_map]
    congr 1
    · rw [show (0 + 1) * M = M from by ring]
      rfl
    · apply List.map_congr_left
      intro j hj
      show stat ((acc ++ bootDrawBlock energies M idx start) ++ _) = stat (acc ++ _)
      rw [List.append_assoc]
      congr 2
      rw [show (Nat.succ j + 1) * M = M + (j + 1) * M from by
          simp only [Nat.succ_eq_add_one]; ring, List.range_add,
        List.map_append, List.map_map]
      congr 1
      apply List.map_congr_left
      intro i hi
      show energies.getD (idx (start + M + i)) 0 = energies.getD (idx (start + (M + i))) 0
      rw [add_assoc]

/-- Claim C5 (amended): `BootstrapAnalysis` does draw `K` resamples of `M`
values each, uniformly with replacement (indices from
`std::uniform_int_distribution(0, M-1)`), but the accumulator shared by the
`GenerateBootstrapSample` calls is never reset, so the k-th recorded "resample
mean" (resp. "variance") is the mean (resp. population variance) of the
concatenation of the first k resamples; the returned mean is the average of
those `K` cumulative means, the returned stdDev is
`sqrt((average of the K cumulative variances) / (M - 1))` (not the standard
deviation of the resample means), and the confidence interval is the
`[smallest, largest]` of the `K` cumulative means (not `mean ± 1.96 stdDev`). -/
theorem bootstrap_c5_amended (energies : List ℝ) (K : ℕ) (idx : ℕ → ℕ) :
    (BootstrapAnalysis energies K idx).mean
      = listMean ((List.range K).map (fun j => listMean
          ((List.range ((j + 1) * energies.length)).map
            (fun i => energies.getD (idx i) 0)))) ∧
    (BootstrapAnalysis energies K idx).stdDev
      = Real.sqrt (listMean ((List.range K).map (fun j => listVariance
          ((List.range ((j + 1) * energies.length)).map
            (fun i => energies.getD (idx (K * energies.length + i)) 0))))
          / ((energies.length : ℝ) - 1)) ∧
    (BootstrapAnalysis energies K idx).confInterval.min
      = (((List.range K).map (fun j => listMean
          ((List.range ((j + 1) * energies.length)).map
            (fun i => energies.getD (idx i) 0)))).min?).getD 0 ∧
    (BootstrapAnalysis energies K idx).confInterval.max
      = (((List.range K).map (fun j => listMean
          ((List.range ((j + 1) * energies.length)).map
            (fun i => energies.getD (idx i) 0)))).max?).getD 0 := by
  rw [BootstrapAnalysis]
  simp only [bootRounds_eq, List.nil_append, zero_add]
  exact ⟨trivial, trivial, trivial, trivial⟩

/-- The bounded-multiplier line search of `VMCRBestParams_` (`vmcalgs.inl`
lines 195-199): the multiplier starts at the constant `0.02f` and is halved
while the proposed component `cur + mult * m` leaves `[lo, hi]`; the component
is then committed as `cur + mult * m`.  Over the reals the `while` loop need
not terminate (when `cur` sits on a boundary and the momentum points outward,
the C++ loop ends only once the multiplier underflows to zero), so the loop
carries a fuel bound and `none` models not finishing within it. -/
noncomputable def shrinkMult (lo hi cur m : ℝ) : ℕ → ℝ → Option ℝ
  | 0, mult =>
    if hi < cur + mult * m ∨ cur + mult * m < lo then none else some mult
  | fuel+1, mult =>
    if hi < cur + mult * m ∨ cur + mult * m < lo then
      shrinkMult lo hi cur m fuel (mult / 2)
    else some mult

lemma shrinkMult_some_bounds (lo hi cur m : ℝ) :
    ∀ (fuel : ℕ) (mult r : ℝ), shrinkMult lo hi cur m fuel mult = some r →
      lo ≤ cur + r * m ∧ cur + r * m ≤ hi := by
  intro fuel
  induction fuel with
  | zero =>
    intro mult r h
    rw [shrinkMult] at h
    split at h
    · exact absurd h (by simp)
    · next hc =>
      push_neg at hc
      cases h
      exact ⟨hc.2, hc.1⟩
  | succ fuel ih =>
    intro mult r h
    rw [shrinkMult] at h
    split at h
    · exact ih (mult / 2) r h
    · next hc =>
      push_neg at hc
      cases h
      exact ⟨hc.2, hc.1⟩

lemma shrinkMult_some_of_reachable (lo hi cur m : ℝ) :
    ∀ (fuel : ℕ) (mult : ℝ),
      (∃ j, j ≤ fuel ∧ lo ≤ cur + (mult / 2 ^ j) * m ∧ cur + (mult / 2 ^ j) * m ≤ hi) →
      ∃ r, shrinkMult lo hi cur m fuel mult = some r := by
  intro fuel
  induction fuel with
  | zero =>
    rintro mult ⟨j, hj, h1, h2⟩
    have hj0 : j = 0 := Nat.le_zero.mp hj
    subst hj0
    rw [pow_zero, div_one] at h1 h2
    rw [shrinkMult, if_neg (by push_neg; exact ⟨h2, h1⟩)]
    exact ⟨mult, rfl⟩
  | succ fuel ih =>
    rintro mult ⟨j, hj, h1, h2⟩
    rw [shrinkMult]
    by_cases hc : hi < cur + mult * m ∨ cur + mult * m < lo
    · rw [if_pos hc]
      match j, hj, h1, h2 with
      | 0, _, h1, h2 =>
        rw [pow_zero, div_one] at h1 h2
        rcases hc with hc | hc <;> linarith
      | j+1, hj, h1, h2 =>
        apply ih (mult / 2)
        refine ⟨j, by omega, ?_, ?_⟩ <;>
        · rw [show mult / 2 / 2 ^ j = mult / 2 ^ (j + 1) from by
            rw [div_div, pow_succ]; ring_nf]
          assumption
    · rw [if_neg hc]
      exact ⟨mult, rfl⟩

/-- Claim C9: in the gradient descent of `VMCRBestParams_`, whenever the
bounded-multiplier line search commits (one halving loop per component,
multiplier starting at `0.02` and halved until the proposal is inside the
bound), the committed component `cur + mult * momentum` lies within `[lo, hi]`;
moreover from any strictly interior current value the search does commit (for
some sufficient fuel), so every committed parameter vector stays inside the
search bounds. -/
theorem gradient_descent_bounds_c9 (lo hi cur m : ℝ) :
    (∀ (fuel : ℕ) (mult r : ℝ), shrinkMult lo hi cur m fuel mult = some r →
      lo ≤ cur + r * m ∧ cur + r * m ≤ hi) ∧
    (lo < cur → cur < hi →
      ∃ (fuel : ℕ) (r : ℝ), shrinkMult lo hi cur m fuel (0.02) = some r ∧
        lo ≤ cur + r * m ∧ cur + r * m ≤ hi) := by
  refine ⟨shrinkMult_some_bounds lo hi cur m, ?_⟩
  intro hlo hhi
  by_cases hm : m = 0
  · subst hm
    obtain ⟨r, hr⟩ := shrinkMult_some_of_reachable lo hi cur 0 0 (0.02)
      ⟨0, le_refl 0, by rw [mul_zero, add_zero]; exact hlo.le,
        by rw [mul_zero, add_zero]; exact hhi.le⟩
    exact ⟨0, r, hr, shrinkMult_some_bounds lo hi cur 0 0 (0.02) r hr⟩
  · have hm2 : (0:ℝ) < |m| := abs_pos.mpr hm
    have hε : (0:ℝ) < min (hi - cur) (cur - lo) := lt_min (by linarith) (by linarith)
    obtain ⟨n, hn⟩ := exists_pow_lt_of_lt_one
      (div_pos hε (by positivity : (0:ℝ) < 0.02 * |m|)) (by norm_num : (1:ℝ)/2 < 1)
    have hb : (0.02 / 2 ^ n) * |m| < min (hi - cur) (cur - lo) := by
      rw [lt_div_iff₀ (by positivity : (0:ℝ) < 0.02 * |m|)] at hn
      have heq : ((1:ℝ)/2) ^ n * (0.02 * |m|) = (0.02 / 2 ^ n) * |m| := by
        rw [one_div, inv_pow]
        ring
      linarith [heq ▸ hn]
    have habs : |(0.02 / 2 ^ n) * m| < min (hi - cur) (cur - lo) := by
      rw [abs_mul, abs_of_pos (by positivity : (0:ℝ) < 0.02 / 2 ^ n)]
      exact hb
    rw [abs_lt] at habs
    have hmin1 : min (hi - cur) (cur - lo) ≤ hi - cur := min_le_left _ _
    have hmin2 : min (hi - cur) (cur - lo) ≤ cur - lo := min_le_right _ _
    obtain ⟨r, hr⟩ := shrinkMult_some_of_reachable lo hi cur m n (0.02)
      ⟨n, le_refl n, by linarith [habs.1], by linarith [habs.2]⟩
    exact ⟨n, r, hr, shrinkMult_some_bounds lo hi cur m n (0.02) r hr⟩

/-- Witness for C9 at a concrete input: bound `[0, 1]`, current value `1/2`,
momentum `1` — the search commits at multiplier `0.02` immediately and the
committed value `0.52` lies inside `[0, 1]`; the interior-termination clause
also applies at this input. -/
theorem gradient_descent_bounds_c9_witness :
    ((0:ℝ) ≤ 1/2 + 0.02 * 1 ∧ (1/2 : ℝ) + 0.02 * 1 ≤ 1) ∧
    (∃ (fuel : ℕ) (r : ℝ), shrinkMult 0 1 (1/2) 1 fuel (0.02) = some r ∧
      (0:ℝ) ≤ 1/2 + r * 1 ∧ 1/2 + r * 1 ≤ 1) := by
  have h := gradient_descent_bounds_c9 0 1 (1/2) 1
  constructor
  · have hs : shrinkMult 0 1 (1/2) 1 0 (0.02) = some 0.02 := by
      rw [shrinkMult, if_neg (by norm_num)]
    have := h.1 0 (0.02) 0.02 hs
    constructor
    · linarith [this.1]
    · linarith [this.2]
  · exact h.2 (by norm_num) (by norm_num)

/-- Embeds `ReweightedEnergies_` (`vmchelpers.inl` lines 328-358): for each
parameter index `v`, move that one parameter by `step`, reweight every stored
local energy by the squared wavefunction ratio at its stored configuration,
and return the weighted mean (sum of the reweighted energies over the sum of
the weights). -/
noncomputable def ReweightedEnergies {D N V : ℕ} (wavef : Wavefunction D N V)
    (oldParams : VarParams V) (oldLEPs : List (ℝ × Positions D N)) (step : ℝ) :
    Fin V → ℝ :=
  fun v =>
    let newParams := Function.update oldParams v (oldParams v + step)
    let numerator := (oldLEPs.map
      (fun lep => (wavef lep.2 newParams / wavef lep.2 oldParams) ^ 2 * lep.1)).sum
    let denominator := (oldLEPs.map
      (fun lep => (wavef lep.2 newParams / wavef lep.2 oldParams) ^ 2)).sum
    numerator / denominator

/-- Claim C10: at reweighting step `0` every component of
`ReweightedEnergies_` is the plain arithmetic mean of the stored local
energies, provided the wavefunction is nonzero at every stored configuration
(all weights are then `1`). -/
theorem reweighting_zero_step_c10 {D N V : ℕ} (wavef : Wavefunction D N V)
    (params : VarParams V) (leps : List (ℝ × Positions D N))
    (hne : leps ≠ []) (hw : ∀ lep ∈ leps, wavef lep.2 params ≠ 0) (v : Fin V) :
    ReweightedEnergies wavef params leps 0 v
      = (leps.map Prod.fst).sum / (leps.length : ℝ) := by
  rw [ReweightedEnergies]
  simp only [add_zero, Function.update_eq_self]
  have h1 : leps.map (fun lep => (wavef lep.2 params / wavef lep.2 params) ^ 2 * lep.1)
      = leps.map Prod.fst :=
    List.map_congr_left (fun lep hmem => by
      rw [div_self (hw lep hmem), one_pow, one_mul])
  have h2 : leps.map (fun lep => (wavef lep.2 params / wavef lep.2 params) ^ 2)
      = leps.map (fun _ => (1:ℝ)) :=
    List.map_congr_left (fun lep hmem => by
      rw [div_self (hw lep hmem), one_pow])
  rw [h1, h2, List.map_const']
  rw [List.sum_replicate, nsmul_eq_mul, mul_one]

/-- Witness for C10 at a concrete input: constant wavefunction `1` (nonzero
everywhere) and the single stored sample of local energy `5`: the reweighted
energy at step `0` is `5/1 = 5`, the plain mean. -/
theorem reweighting_zero_step_c10_witness :
    ReweightedEnergies (D := 1) (N := 1) (V := 1) (fun _ _ => 1) (fun _ => 0)
      [(5, fun _ _ => 0)] 0 0 = 5 := by
  have h := reweighting_zero_step_c10 (D := 1) (N := 1) (V := 1) (fun _ _ => 1)
    (fun _ => 0) [(5, fun _ _ => 0)] (by simp) (fun lep _ => by norm_num) 0
  rw [h]
  norm_num

end VmcProject
